import Mathlib

/-!
Verification of the asynchronix discrete-event simulation core.

This file gives a shallow embedding of the four source files of the
repository (`simulation.rs`, `simulation/sim_init.rs`,
`executor/st_executor.rs`, `rpc/generic_server.rs`) together with models of
the repository components they use that are not part of the provided
sources (the monotonic time type and the scheduler priority queue, both
modelled from the specification).  Theorems about the embedded definitions
settle the claims about the simulation driver, the scheduler, the
single-threaded executor and the gRPC server helpers.
-/

set_option maxHeartbeats 1000000

/-- Modelled from the spec: the monotonic simulation time
(`crate::time::MonotonicTime`, not under `src/`).  Per the spec's data
model it is a pair `(seconds : i64, subsec_nanos : u32 ∈ [0, 10⁹))`; the
second field's range invariant is carried by the structure.  Seconds are
modelled as unbounded integers (the i64 overflow behaviour is outside the
claims). -/
structure MonotonicTime where
  secs : Int
  nanos : Nat
  nanos_lt : nanos < 1000000000

namespace MonotonicTime

/-- Total nanosecond count of a time; with the `nanos` invariant this is a
faithful injective image of the `(secs, nanos)` pair. -/
def toNs (t : MonotonicTime) : Int := t.secs * 1000000000 + (t.nanos : Int)

/-- Lexicographic (derived `Ord`) strict order on `(secs, nanos)`. -/
def lt (a b : MonotonicTime) : Prop :=
  a.secs < b.secs ∨ (a.secs = b.secs ∧ a.nanos < b.nanos)

/-- Lexicographic (derived `Ord`) order on `(secs, nanos)`. -/
def le (a b : MonotonicTime) : Prop :=
  a.secs < b.secs ∨ (a.secs = b.secs ∧ a.nanos ≤ b.nanos)

instance : DecidableEq MonotonicTime := fun a b =>
  decidable_of_iff (a.secs = b.secs ∧ a.nanos = b.nanos) (by
    cases a; cases b; simp)

instance (a b : MonotonicTime) : Decidable (lt a b) :=
  inferInstanceAs (Decidable (_ ∨ _))

instance (a b : MonotonicTime) : Decidable (le a b) :=
  inferInstanceAs (Decidable (_ ∨ _))

theorem ext_iff {a b : MonotonicTime} : a = b ↔ a.secs = b.secs ∧ a.nanos = b.nanos := by
  cases a; cases b; simp

theorem toNs_inj {a b : MonotonicTime} : a.toNs = b.toNs ↔ a = b := by
  have ha := a.nanos_lt
  have hb := b.nanos_lt
  rw [ext_iff]
  unfold toNs
  omega

theorem lt_iff_toNs {a b : MonotonicTime} : lt a b ↔ a.toNs < b.toNs := by
  have ha := a.nanos_lt
  have hb := b.nanos_lt
  unfold lt toNs
  omega

theorem le_iff_toNs {a b : MonotonicTime} : le a b ↔ a.toNs ≤ b.toNs := by
  have ha := a.nanos_lt
  have hb := b.nanos_lt
  unfold le toNs
  omega

/-- The TAI epoch 1970-01-01 00:00:00 (`MonotonicTime::EPOCH`). -/
def EPOCH : MonotonicTime := ⟨0, 0, by omega⟩

/-- The maximum representable time (`MonotonicTime::MAX`): `i64::MAX`
seconds and `10⁹ - 1` nanoseconds. -/
def MAX : MonotonicTime := ⟨9223372036854775807, 999999999, by omega⟩

/-- Modelled from the external `tai_time` crate: `MonotonicTime::new` as
used by the server; it returns `None` exactly when the nanosecond part is
not below `10⁹`. -/
def new (secs : Int) (subsecNanos : Nat) : Option MonotonicTime :=
  if h : subsecNanos < 1000000000 then some ⟨secs, subsecNanos, h⟩ else none

end MonotonicTime

/-- Model of `std::time::Duration`: seconds and a sub-second nanosecond
field below `10⁹`. -/
structure Duration where
  secs : Nat
  nanos : Nat
  nanos_lt : nanos < 1000000000

namespace Duration

/-- Total nanosecond count of a duration. -/
def toNs (d : Duration) : Int := (d.secs : Int) * 1000000000 + (d.nanos : Int)

/-- Model of `Duration::is_zero`. -/
def isZero (d : Duration) : Prop := d.secs = 0 ∧ d.nanos = 0

instance (d : Duration) : Decidable (isZero d) :=
  inferInstanceAs (Decidable (_ ∧ _))

instance : DecidableEq Duration := fun a b =>
  decidable_of_iff (a.secs = b.secs ∧ a.nanos = b.nanos) (by
    cases a; cases b; simp)

end Duration

namespace MonotonicTime

/-- Modelled from the spec: addition of a `Duration` to a `MonotonicTime`
with nanosecond carry (the `Add<Duration>` impl of the time type, not under
`src/`; i64 overflow, which panics in the source, is not modelled). -/
def add (t : MonotonicTime) (d : Duration) : MonotonicTime :=
  let n := t.nanos + d.nanos
  if h : n < 1000000000 then
    ⟨t.secs + d.secs, n, h⟩
  else
    ⟨t.secs + d.secs + 1, n - 1000000000, by
      have := t.nanos_lt
      have := d.nanos_lt
      omega⟩

theorem add_toNs (t : MonotonicTime) (d : Duration) :
    (t.add d).toNs = t.toNs + d.toNs := by
  unfold add toNs Duration.toNs
  by_cases h : t.nanos + d.nanos < 1000000000 <;> simp [h] <;> omega

theorem le_add (t : MonotonicTime) (d : Duration) : t.le (t.add d) := by
  rw [le_iff_toNs, add_toNs]
  have : 0 ≤ d.toNs := by unfold Duration.toNs; positivity
  omega

theorem le_refl (t : MonotonicTime) : t.le t := by
  rw [le_iff_toNs]

theorem le_trans {a b c : MonotonicTime} (h₁ : a.le b) (h₂ : b.le c) : a.le c := by
  rw [le_iff_toNs] at *
  omega

theorem lt_of_not_le {a b : MonotonicTime} (h : ¬ a.le b) : b.lt a := by
  rw [le_iff_toNs] at h
  rw [lt_iff_toNs]
  omega

theorem le_of_lt {a b : MonotonicTime} (h : a.lt b) : a.le b := by
  rw [lt_iff_toNs] at h
  rw [le_iff_toNs]
  omega

end MonotonicTime

/-- Modelled from the spec: a pending entry of the scheduler priority queue
(`SchedulerQueue`, not under `src/`).  Per the spec's data model an entry is
a triple `(time, seq, channel)` mapped to an action, where `seq` is the
monotone insertion counter breaking time ties and `channel` identifies the
target mailbox.  The driver (spec §4.4 and `simulation.rs`) compares queue
keys as `(time, channel)` pairs, so entries sharing a key are yielded
consecutively, in insertion (`seq`) order. -/
structure SEntry (α : Type) where
  time : MonotonicTime
  channel : Nat
  seq : Nat
  action : α
deriving DecidableEq

/-- Modelled from the spec: the total lexicographic order of queue entries,
grouping a key `(time, channel)` together and breaking key ties by the
insertion counter `seq`. -/
def entLt {α : Type} (a b : SEntry α) : Prop :=
  a.time.lt b.time ∨
    (a.time = b.time ∧ (a.channel < b.channel ∨ (a.channel = b.channel ∧ a.seq < b.seq)))

instance {α : Type} (a b : SEntry α) : Decidable (entLt a b) :=
  inferInstanceAs (Decidable (_ ∨ _))

theorem entLt_iff {α : Type} {a b : SEntry α} :
    entLt a b ↔
      (a.time.toNs < b.time.toNs ∨
        (a.time.toNs = b.time.toNs ∧
          (a.channel < b.channel ∨ (a.channel = b.channel ∧ a.seq < b.seq)))) := by
  unfold entLt
  rw [MonotonicTime.lt_iff_toNs]
  constructor
  · rintro (h | ⟨h, h'⟩)
    · exact Or.inl h
    · exact Or.inr ⟨by rw [h], h'⟩
  · rintro (h | ⟨h, h'⟩)
    · exact Or.inl h
    · exact Or.inr ⟨MonotonicTime.toNs_inj.mp h, h'⟩

theorem entLt_irrefl {α : Type} (a : SEntry α) : ¬ entLt a a := by
  rw [entLt_iff]; omega

theorem entLt_asymm {α : Type} {a b : SEntry α} (h : entLt a b) : ¬ entLt b a := by
  rw [entLt_iff] at *; omega

theorem entLt_trans {α : Type} {a b c : SEntry α} (h₁ : entLt a b) (h₂ : entLt b c) :
    entLt a c := by
  rw [entLt_iff] at *; omega

theorem entLt_time_le {α : Type} {a b : SEntry α} (h : entLt a b) : a.time.le b.time := by
  rw [entLt_iff] at h
  rw [MonotonicTime.le_iff_toNs]
  omega

/-- Squeeze lemma for the lexicographic order: an entry strictly between two
entries of equal key shares that key. -/
theorem entLt_key_squeeze {α : Type} {a b c : SEntry α} (h₁ : entLt a b) (h₂ : entLt b c)
    (ht : a.time = c.time) (hc : a.channel = c.channel) :
    b.time = a.time ∧ b.channel = a.channel := by
  rw [entLt_iff] at h₁ h₂
  have ht' : a.time.toNs = c.time.toNs := by rw [ht]
  constructor
  · apply MonotonicTime.toNs_inj.mp
    omega
  · omega

/-- Modelled from the spec: sorted insertion into the scheduler queue
(`SchedulerQueue::insert`); the fresh entry carries the largest `seq`, so it
lands after every entry with the same `(time, channel)` key. -/
def insertEntry {α : Type} (e : SEntry α) : List (SEntry α) → List (SEntry α)
  | [] => [e]
  | x :: xs => if entLt x e then x :: insertEntry e xs else e :: x :: xs

/-- State of a `Simulation` (`simulation.rs`): the time cell, the scheduler
queue (with its insertion counter) and the executor.  The executor is
modelled by its queue of not-yet-run spawned tasks (`running`) and a log of
the tasks it has run (`delivered`); a task is a list of
`(channel, payload)` messages delivered in order (a `SeqFuture` task holds
several, an independently spawned task holds one). -/
structure SimState (α : Type) where
  time : MonotonicTime
  queue : List (SEntry α)
  nextSeq : Nat
  running : List (List (Nat × α))
  delivered : List (List (Nat × α))
deriving DecidableEq

/-- Message sequence of one spawned task built from a group of co-temporal
same-channel scheduler entries (the task or `SeqFuture` spawned by
`step_to_next_bounded`). -/
def groupTask {α : Type} (g : List (SEntry α)) : List (Nat × α) :=
  g.map fun x => (x.channel, x.action)

/-- Key comparison performed by the driver loop: `next_key == current_key`
on `(time, channel)` queue keys. -/
def sameKey {α : Type} (key : MonotonicTime × Nat) (x : SEntry α) : Bool :=
  decide ((x.time, x.channel) = key)

/-- Length bound used to justify termination of the slice-extraction loop. -/
theorem dropWhile_cons_length {α : Type} (p : α → Bool) (l l' : List α) (a : α)
    (h : l.dropWhile p = a :: l') : l'.length < l.length := by
  have hs : List.Sublist (l.dropWhile p) l := List.dropWhile_sublist p
  have hle := List.Sublist.length_le hs
  rw [h] at hle
  simp only [List.length_cons] at hle
  omega

/-- The extraction loop of `Simulation::step_to_next_bounded`
(`simulation.rs` lines 407-448): repeatedly pull the front entry; entries
immediately following it with the same `(time, channel)` key are pulled
into the same group (the `SeqFuture` concatenation), and as long as the
next key has the same time the loop continues with that key.  Returns the
groups in spawn order together with the remaining queue. -/
def processSlice {α : Type} (key : MonotonicTime × Nat) :
    List (SEntry α) → List (List (SEntry α)) × List (SEntry α)
  | [] => ([], [])
  | e :: rest =>
    let grp := e :: rest.takeWhile (sameKey key)
    match hq : rest.dropWhile (sameKey key) with
    | [] => ([grp], [])
    | e' :: tl =>
      if e'.time = key.1 then
        let res := processSlice (e'.time, e'.channel) (e' :: tl)
        (grp :: res.1, res.2)
      else ([grp], e' :: tl)
termination_by q => q.length
decreasing_by
  have h := dropWhile_cons_length _ _ _ _ hq
  simp only [List.length_cons]
  omega

/-- `Simulation::step_to_next_bounded` (`simulation.rs` lines 396-449): if
the front of the queue is scheduled no later than the bound, write its time
to the time cell, extract the time slice into grouped tasks, spawn each
group as a single task and run the executor to quiescence; otherwise return
`None` leaving the state unchanged. -/
def stepToNextBounded {α : Type} (s : SimState α) (bound : MonotonicTime) :
    Option MonotonicTime × SimState α :=
  match s.queue with
  | [] => (none, s)
  | e :: _ =>
    if e.time.le bound then
      let res := processSlice (e.time, e.channel) s.queue
      (some e.time,
        { s with
            time := e.time
            queue := res.2
            running := []
            delivered := s.delivered ++ s.running ++ res.1.map groupTask })
    else (none, s)

theorem processSlice_nil {α : Type} (key : MonotonicTime × Nat) :
    processSlice (α := α) key [] = ([], []) := by
  rw [processSlice]

theorem processSlice_cons {α : Type} (key : MonotonicTime × Nat) (e : SEntry α)
    (rest : List (SEntry α)) :
    processSlice key (e :: rest) =
      match rest.dropWhile (sameKey key) with
      | [] => ([e :: rest.takeWhile (sameKey key)], [])
      | e' :: tl =>
        if e'.time = key.1 then
          ((e :: rest.takeWhile (sameKey key)) :: (processSlice (e'.time, e'.channel) (e' :: tl)).1,
            (processSlice (e'.time, e'.channel) (e' :: tl)).2)
        else ([e :: rest.takeWhile (sameKey key)], e' :: tl) := by
  rw [processSlice]
  split <;> rename_i h <;> rw [h]

/-- The queue left over by the slice-extraction loop is a sublist of the
tail of the input queue. -/
theorem processSlice_snd_sublist {α : Type} :
    ∀ (n : Nat) (key : MonotonicTime × Nat) (e : SEntry α) (rest : List (SEntry α)),
      rest.length ≤ n → List.Sublist (processSlice key (e :: rest)).2 rest := by
  intro n
  induction n with
  | zero =>
    intro key e rest h
    have : rest = [] := List.length_eq_zero.mp (by omega)
    subst this
    rw [processSlice_cons]
    simp
  | succ n ih =>
    intro key e rest h
    rw [processSlice_cons]
    rcases hd : rest.dropWhile (sameKey key) with _ | ⟨e', tl⟩
    · simp
    · dsimp only
      have hsub : List.Sublist (e' :: tl) rest := by
        rw [← hd]; exact List.dropWhile_sublist _
      have hlen : tl.length < rest.length := dropWhile_cons_length _ _ _ _ hd
      split
      · have := ih (e'.time, e'.channel) e' tl (by omega)
        exact this.trans (List.sublist_of_cons_sublist hsub)
      · exact hsub

/-- A successful bounded step strictly shrinks the scheduler queue. -/
theorem stepToNextBounded_queue_length {α : Type} (s : SimState α) (b t : MonotonicTime)
    (s' : SimState α) (h : stepToNextBounded s b = (some t, s')) :
    s'.queue.length < s.queue.length := by
  unfold stepToNextBounded at h
  rcases hq : s.queue with _ | ⟨e, rest⟩
  · rw [hq] at h; simp at h
  · rw [hq] at h
    by_cases hb : e.time.le b
    · simp only [hb, if_pos] at h
      have h2 := congrArg Prod.snd h
      simp at h2
      have hsub := processSlice_snd_sublist rest.length (e.time, e.channel) e rest (by omega)
      have := hsub.length_le
      rw [← h2]
      simp
      omega
    · simp [hb] at h

/-- `Simulation::step_until_unchecked` (`simulation.rs` lines 460-475):
repeat the bounded step with the target as bound until it reaches the
target exactly, or until no entry at or before the target is left, in which
case the time cell is set to the target. -/
def stepUntilUnchecked {α : Type} (s : SimState α) (target : MonotonicTime) : SimState α :=
  match h : stepToNextBounded s target with
  | (some t, s') => if t = target then s' else stepUntilUnchecked s' target
  | (none, s') => { s' with time := target }
termination_by s.queue.length
decreasing_by
  exact stepToNextBounded_queue_length _ _ _ _ h

/-- `Simulation::step` (`simulation.rs` line 209): bounded step with
`MonotonicTime::MAX` as the bound. -/
def step {α : Type} (s : SimState α) : SimState α :=
  (stepToNextBounded s MonotonicTime.MAX).2

/-- `Simulation::step_by` (`simulation.rs` lines 220-224): compute the
target as the current time plus the duration and run the unchecked loop. -/
def stepBy {α : Type} (s : SimState α) (duration : Duration) : SimState α :=
  stepUntilUnchecked s (s.time.add duration)

/-- Model of `ScheduledTimeError<T>`, the error carrying back the event
argument when a deadline is not in the future. -/
structure ScheduledTimeError (T : Type) where
  arg : T
deriving DecidableEq

/-- `Simulation::step_until` (`simulation.rs` lines 232-239): error when
the target does not lie in the future of the current time, otherwise run
the unchecked loop. -/
def stepUntil {α : Type} (s : SimState α) (target : MonotonicTime) :
    SimState α × Option (ScheduledTimeError Unit) :=
  if target.le s.time then (s, some ⟨()⟩)
  else (stepUntilUnchecked s target, none)

/-- Modelled from the spec: `schedule_event_at_unchecked` inserting an
entry into the scheduler queue (`time` module, not under `src/`); the queue
insert allocates the next monotone `seq` and returns it as the scheduler
key. -/
def scheduleEventAtUnchecked {α : Type} (s : SimState α) (t : MonotonicTime) (ch : Nat)
    (a : α) : SimState α × Nat :=
  ({ s with
      queue := insertEntry ⟨t, ch, s.nextSeq, a⟩ s.queue
      nextSeq := s.nextSeq + 1 },
    s.nextSeq)

/-- `Simulation::schedule_in` (`simulation.rs` lines 247-273): reject a
null duration, otherwise schedule at the current time plus the duration. -/
def scheduleIn {α : Type} (s : SimState α) (duration : Duration) (ch : Nat) (a : α) :
    SimState α × Except (ScheduledTimeError α) Nat :=
  if duration.isZero then (s, .error ⟨a⟩)
  else
    let r := scheduleEventAtUnchecked s (s.time.add duration) ch a
    (r.1, .ok r.2)

/-- `Simulation::schedule_at` (`simulation.rs` lines 282-306): reject a
time not in the future of the current time, otherwise schedule at it. -/
def scheduleAt {α : Type} (s : SimState α) (t : MonotonicTime) (ch : Nat) (a : α) :
    SimState α × Except (ScheduledTimeError α) Nat :=
  if t.le s.time then (s, .error ⟨a⟩)
  else
    let r := scheduleEventAtUnchecked s t ch a
    (r.1, .ok r.2)

/-- `Simulation::send_event` (`simulation.rs` lines 320-345): spawn the
delivery of one message on the executor and run it to quiescence; the time
cell and the scheduler queue are not touched. -/
def sendEvent {α : Type} (s : SimState α) (ch : Nat) (arg : α) : SimState α :=
  { s with
      running := []
      delivered := s.delivered ++ s.running ++ [[(ch, arg)]] }

/-- Model of `QueryError`, returned when a query obtained no response. -/
structure QueryError where
deriving DecidableEq

/-- `Simulation::send_query` (`simulation.rs` lines 350-388): spawn the
delivery of the query message on the executor and run it to quiescence,
then read the reply slot; `reply` models the slot contents written by the
model's replier (`None` when no reply was produced, turned into
`QueryError`).  The time cell and the scheduler queue are not touched. -/
def sendQuery {α β : Type} (s : SimState α) (ch : Nat) (arg : α) (reply : Option β) :
    SimState α × Except QueryError β :=
  ({ s with
      running := []
      delivered := s.delivered ++ s.running ++ [[(ch, arg)]] },
    match reply with
    | some r => .ok r
    | none => .error ⟨⟩)

/-- A time-advancing call on the driver surface: `step()`, `step_by(d)` or
`step_until(t)`. -/
inductive SimOp where
  | step : SimOp
  | stepBy : Duration → SimOp
  | stepUntil : MonotonicTime → SimOp
deriving DecidableEq

/-- Apply one driver call to the simulation state (a failing `step_until`
leaves the state unchanged). -/
def applySimOp {α : Type} (s : SimState α) : SimOp → SimState α
  | SimOp.step => step s
  | SimOp.stepBy d => stepBy s d
  | SimOp.stepUntil t => (stepUntil s t).1

/-- Run a sequence of driver calls. -/
def runSim {α : Type} (s : SimState α) : List SimOp → SimState α
  | [] => s
  | op :: ops => runSim (applySimOp s op) ops

/-- The shared context of the single-threaded executor
(`st_executor.rs` lines 159-175): the FIFO work queue of `Runnable`s
(identified here by `Nat` ids) and the executor's unique id. -/
structure ExecutorContext where
  executor_id : Nat
  queue : List Nat
deriving DecidableEq

/-- `schedule_task` (`st_executor.rs` lines 231-244): the waker callback.
The first argument models the scoped thread-local `EXECUTOR_CONTEXT`
(`none` when no executor context is entered on the current thread); a
panic is modelled as `Except.error` with the panic message. -/
def scheduleTask (ctx : Option ExecutorContext) (task : Nat) (executorId : Nat) :
    Except String ExecutorContext :=
  match ctx with
  | none => .error "Tasks may not be awaken outside executor threads"
  | some c =>
    if executorId = c.executor_id then
      .ok { c with queue := c.queue ++ [task] }
    else
      .error "Tasks must be awaken on the same executor they are spawned on"

/-- The number of bits of `usize` on the 64-bit targets the crate runs on
(`usize::BITS`). -/
def usizeBits : Nat := 64

/-- `usize::clamp` from the Rust standard library as applied to the thread
count. -/
def natClamp (x lo hi : Nat) : Nat :=
  if x < lo then lo else if hi < x then hi else x

/-- The executor variant selected by `SimInit::with_num_threads`
(`sim_init.rs` lines 35-56): single-threaded, or multi-threaded with the
given worker count. -/
inductive ExecutorModel where
  | singleThreaded : ExecutorModel
  | multiThreaded : Nat → ExecutorModel
deriving DecidableEq

/-- `SimInit::with_num_threads` (`sim_init.rs` lines 35-56): the number of
worker threads is clamped to `[1, usize::BITS]` and the single-threaded
executor is used exactly when the clamped count is 1. -/
def withNumThreads (numThreads : Nat) : ExecutorModel :=
  let n := natClamp numThreads 1 usizeBits
  if n = 1 then ExecutorModel.singleThreaded else ExecutorModel.multiThreaded n

/-- Model of the protobuf `Timestamp` (`prost_types::Timestamp`): an `i64`
seconds field and an `i32` nanos field, both modelled as unbounded
integers. -/
structure Timestamp where
  seconds : Int
  nanos : Int
deriving DecidableEq

/-- `monotonic_to_timestamp` (`generic_server.rs` lines 613-630): `None`
when the seconds lie outside the protobuf timestamp range, otherwise the
`(seconds, nanos)` pair (the `u32 → i32` cast of the sub-second nanoseconds
is value-preserving because they are below `10⁹ < 2³¹`). -/
def monotonicToTimestamp (monotonicTime : MonotonicTime) : Option Timestamp :=
  let MIN_SECS : Int := -62135596800
  let MAX_SECS : Int := 253402300799
  let secs := monotonicTime.secs
  if MIN_SECS ≤ secs ∧ secs ≤ MAX_SECS then
    some { seconds := secs, nanos := (monotonicTime.nanos : Int) }
  else
    none

/-- `timestamp_to_monotonic` (`generic_server.rs` lines 637-641): the
`i32 → u32` conversion fails exactly on a negative nanos field, and
`MonotonicTime::new` fails exactly when the nanos are not below `10⁹`. -/
def timestampToMonotonic (timestamp : Timestamp) : Option MonotonicTime :=
  if timestamp.nanos < 0 then none
  else MonotonicTime.new timestamp.seconds timestamp.nanos.toNat

/-- The `InitRequest` protobuf message: an optional start time. -/
structure InitRequest where
  time : Option Timestamp

/-- The context held by `GenericServer` while a simulation is active: the
simulation together with its endpoint registry (abstracted as a list of
registered names) and its key registry (abstracted as a list of key
entries). -/
structure ServerCtx (α : Type) where
  sim : SimState α
  endpoints : List String
  keyReg : List Nat

/-- `SimInit::init(start_time)` as invoked by the server: a freshly built
simulation starts at the given time with an empty scheduler queue and an
idle executor (`sim_init.rs` lines 91-105, model initializers not
modelled). -/
def simInitInit {α : Type} (startTime : MonotonicTime) : SimState α :=
  { time := startTime, queue := [], nextSeq := 0, running := [], delivered := [] }

/-- `GenericServer::init` (`generic_server.rs` lines 101-119): a missing
`time` field defaults to the protobuf zero `Timestamp`; on a valid time a
fresh simulation, endpoint registry (produced by `sim_gen`, here the
`endpoints` argument) and default key registry replace whatever context was
active; on an invalid time the old context is kept and an error reply is
produced (`false`). -/
def serverInit {α : Type} (endpoints : List String) (st : Option (ServerCtx α))
    (request : InitRequest) : Option (ServerCtx α) × Bool :=
  let startTime := request.time.getD { seconds := 0, nanos := 0 }
  match timestampToMonotonic startTime with
  | some t => (some { sim := simInitInit t, endpoints := endpoints, keyReg := [] }, true)
  | none => (st, false)

theorem stepToNextBounded_none {α : Type} {s : SimState α} {b : MonotonicTime}
    {s' : SimState α} (h : stepToNextBounded s b = (none, s')) : s' = s := by
  unfold stepToNextBounded at h
  rcases hq : s.queue with _ | ⟨e, rest⟩ <;> rw [hq] at h
  · simp at h; exact h.symm
  · by_cases hb : e.time.le b <;> simp [hb] at h
    exact h.symm

/-- Characterization of a successful bounded step. -/
theorem stepToNextBounded_some {α : Type} {s : SimState α} {b t : MonotonicTime}
    {s' : SimState α} (h : stepToNextBounded s b = (some t, s')) :
    ∃ e rest, s.queue = e :: rest ∧ e.time.le b ∧ t = e.time ∧
      s' = { s with
              time := e.time
              queue := (processSlice (e.time, e.channel) (e :: rest)).2
              running := []
              delivered :=
                s.delivered ++ s.running ++
                  ((processSlice (e.time, e.channel) (e :: rest)).1.map groupTask) } := by
  unfold stepToNextBounded at h
  rcases hq : s.queue with _ | ⟨e, rest⟩ <;> rw [hq] at h
  · simp at h
  · by_cases hb : e.time.le b <;> simp [hb] at h
    refine ⟨e, rest, rfl, hb, h.1.symm, ?_⟩
    rw [← h.2]
    simp [List.append_assoc]

theorem stepUntilUnchecked_eq {α : Type} (s : SimState α) (target : MonotonicTime) :
    stepUntilUnchecked s target =
      match stepToNextBounded s target with
      | (some t, s') => if t = target then s' else stepUntilUnchecked s' target
      | (none, s') => { s' with time := target } := by
  rw [stepUntilUnchecked]
  split <;> rename_i h <;> rw [h]

/-- The unchecked stepping loop always ends with the time cell holding the
target time. -/
theorem stepUntilUnchecked_time {α : Type} (s : SimState α) (target : MonotonicTime) :
    (stepUntilUnchecked s target).time = target := by
  generalize hn : s.queue.length = n
  induction n using Nat.strong_induction_on generalizing s with
  | _ n ih =>
    rw [stepUntilUnchecked_eq]
    rcases h : stepToNextBounded s target with ⟨o, s'⟩
    rcases o with _ | t
    · have := stepToNextBounded_none h
      simp
    · simp only
      by_cases ht : t = target
      · simp only [ht, if_pos]
        obtain ⟨e, rest, _, _, het, hs'⟩ := stepToNextBounded_some h
        rw [hs', ← het, ht]
      · simp only [ht, if_neg, not_false_iff]
        have hlt := stepToNextBounded_queue_length s target t s' h
        exact ih s'.queue.length (by omega) s' rfl

theorem MonotonicTime.lt_of_lt_of_le {a b c : MonotonicTime} (h₁ : a.lt b) (h₂ : b.le c) :
    a.lt c := by
  rw [MonotonicTime.lt_iff_toNs] at *
  rw [MonotonicTime.le_iff_toNs] at h₂
  omega

/-- The driver's state invariant: the scheduler queue is sorted by the
queue order and only holds entries scheduled no earlier than the current
simulation time. -/
def SimInv {α : Type} (s : SimState α) : Prop :=
  List.Pairwise entLt s.queue ∧ ∀ x ∈ s.queue, s.time.le x.time

instance {α : Type} (s : SimState α) : Decidable (SimInv s) :=
  inferInstanceAs (Decidable (_ ∧ _))

/-- A bounded step that finds no entry within the bound only sees entries
scheduled strictly after the bound. -/
theorem stepToNextBounded_none_later {α : Type} {s : SimState α} {b : MonotonicTime}
    {s' : SimState α} (h : stepToNextBounded s b = (none, s'))
    (hs : List.Pairwise entLt s.queue) : ∀ x ∈ s.queue, b.lt x.time := by
  unfold stepToNextBounded at h
  rcases hq : s.queue with _ | ⟨e, rest⟩ <;> rw [hq] at h
  · intro x hx; simp at hx
  · by_cases hb : e.time.le b <;> simp [hb] at h
    intro x hx
    have hbe : b.lt e.time := MonotonicTime.lt_of_not_le hb
    rcases List.mem_cons.mp hx with rfl | hx'
    · exact hbe
    · rw [hq] at hs
      have he := (List.pairwise_cons.mp hs).1 x hx'
      exact MonotonicTime.lt_of_lt_of_le hbe (entLt_time_le he)

/-- A bounded step preserves the driver invariant and never rewinds the
time cell. -/
theorem stepToNextBounded_inv {α : Type} {s : SimState α} (b : MonotonicTime)
    (hInv : SimInv s) :
    SimInv (stepToNextBounded s b).2 ∧ s.time.le (stepToNextBounded s b).2.time := by
  rcases h : stepToNextBounded s b with ⟨o, s'⟩
  rcases o with _ | t
  · have := stepToNextBounded_none h
    subst this
    exact ⟨hInv, MonotonicTime.le_refl _⟩
  · obtain ⟨e, rest, hq, hb, het, hs'⟩ := stepToNextBounded_some h
    have hsorted := hInv.1
    rw [hq] at hsorted
    have hpc := List.pairwise_cons.mp hsorted
    have hsub : List.Sublist (processSlice (e.time, e.channel) (e :: rest)).2 rest :=
      processSlice_snd_sublist rest.length _ e rest (by omega)
    constructor
    · constructor
      · rw [hs']
        exact hpc.2.sublist hsub
      · intro x hx
        rw [hs'] at hx ⊢
        simp only at hx ⊢
        have hxrest : x ∈ rest := hsub.mem hx
        exact entLt_time_le (hpc.1 x hxrest)
    · rw [hs']
      exact hInv.2 e (by rw [hq]; exact List.mem_cons_self e rest)

/-- The unchecked stepping loop preserves the driver invariant whenever the
target is not behind any pending entry it leaves in place. -/
theorem stepUntilUnchecked_inv {α : Type} (s : SimState α) (target : MonotonicTime)
    (hInv : SimInv s) : SimInv (stepUntilUnchecked s target) := by
  generalize hn : s.queue.length = n
  induction n using Nat.strong_induction_on generalizing s with
  | _ n ih =>
    rw [stepUntilUnchecked_eq]
    rcases h : stepToNextBounded s target with ⟨o, s'⟩
    rcases o with _ | t
    · have heq := stepToNextBounded_none h
      subst heq
      simp only
      constructor
      · exact hInv.1
      · intro x hx
        exact MonotonicTime.le_of_lt (stepToNextBounded_none_later h hInv.1 x hx)
    · simp only
      have hstep := stepToNextBounded_inv target hInv
      rw [h] at hstep
      by_cases ht : t = target
      · simp only [ht, if_pos]
        exact hstep.1
      · simp only [ht, if_neg, not_false_iff]
        have hlt := stepToNextBounded_queue_length s target t s' h
        exact ih s'.queue.length (by omega) s' hstep.1 rfl

/-- One driver stepping call preserves the invariant and never decreases
the time cell. -/
theorem applySimOp_inv {α : Type} (s : SimState α) (op : SimOp) (hInv : SimInv s) :
    SimInv (applySimOp s op) ∧ s.time.le (applySimOp s op).time := by
  rcases op with _ | d | t
  · exact ⟨(stepToNextBounded_inv MonotonicTime.MAX hInv).1,
      (stepToNextBounded_inv MonotonicTime.MAX hInv).2⟩
  · refine ⟨stepUntilUnchecked_inv s _ hInv, ?_⟩
    show s.time.le (stepUntilUnchecked s (s.time.add d)).time
    rw [stepUntilUnchecked_time]
    exact MonotonicTime.le_add s.time d
  · show SimInv (stepUntil s t).1 ∧ s.time.le (stepUntil s t).1.time
    unfold stepUntil
    by_cases hc : t.le s.time <;> simp [hc]
    · exact ⟨hInv, MonotonicTime.le_refl _⟩
    · refine ⟨stepUntilUnchecked_inv s t hInv, ?_⟩
      rw [stepUntilUnchecked_time]
      exact MonotonicTime.le_of_lt (MonotonicTime.lt_of_not_le hc)

/-- Over any sequence of driver stepping calls the time cell never
decreases. -/
theorem runSim_time_le {α : Type} (s : SimState α) (ops : List SimOp) (hInv : SimInv s) :
    s.time.le (runSim s ops).time := by
  induction ops generalizing s with
  | nil => exact MonotonicTime.le_refl _
  | cons op ops ih =>
    have h := applySimOp_inv s op hInv
    exact MonotonicTime.le_trans h.2 (ih (applySimOp s op) h.1)

theorem sameKey_eq_true {α : Type} {key : MonotonicTime × Nat} {x : SEntry α} :
    sameKey key x = true ↔ (x.time, x.channel) = key := by
  simp [sameKey]

/-- In a sorted queue whose head has a given key, the entries with that key
form exactly the contiguous run at the front of the tail. -/
theorem filter_eq_takeWhile_sorted {α : Type} :
    ∀ (l : List (SEntry α)) (e : SEntry α), List.Pairwise entLt (e :: l) →
      l.filter (sameKey (e.time, e.channel)) = l.takeWhile (sameKey (e.time, e.channel)) := by
  intro l
  induction l with
  | nil => intro e _; rfl
  | cons y ys ih =>
    intro e hp
    have hpc := List.pairwise_cons.mp hp
    have hey : entLt e y := hpc.1 y (List.mem_cons_self y ys)
    by_cases hy : sameKey (e.time, e.channel) y = true
    · rw [List.filter_cons_of_pos hy, List.takeWhile_cons_of_pos hy]
      have hkey : (y.time, y.channel) = (e.time, e.channel) := sameKey_eq_true.mp hy
      have hkey' : y.time = e.time ∧ y.channel = e.channel := by
        simpa using hkey
      have hrec := ih y hpc.2
      rw [hkey'.1, hkey'.2] at hrec
      rw [hrec]
    · rw [List.filter_cons_of_neg hy, List.takeWhile_cons_of_neg hy]
      rw [List.filter_eq_nil_iff]
      intro z hz hzkey
      have hzkey' : z.time = e.time ∧ z.channel = e.channel := by
        simpa using sameKey_eq_true.mp hzkey
      have hyz : entLt y z := (List.pairwise_cons.mp hpc.2).1 z hz
      have := entLt_key_squeeze hey hyz hzkey'.1.symm hzkey'.2.symm
      exact hy (sameKey_eq_true.mpr (by simp [this.1, this.2]))

/-- Every group produced by the slice-extraction loop is homogeneous: all
of its entries share the slice time and one channel. -/
theorem processSlice_groups_homog {α : Type} (n : Nat) :
    ∀ (e : SEntry α) (rest : List (SEntry α)), rest.length ≤ n →
      ∀ g ∈ (processSlice (e.time, e.channel) (e :: rest)).1,
        ∃ c, ∀ x ∈ g, x.time = e.time ∧ x.channel = c := by
  induction n using Nat.strong_induction_on with
  | _ n ih =>
    intro e rest hlen g hg
    rw [processSlice_cons] at hg
    rcases hd : rest.dropWhile (sameKey (e.time, e.channel)) with _ | ⟨e', tl⟩ <;>
      rw [hd] at hg
    · simp only [List.mem_singleton] at hg
      subst hg
      refine ⟨e.channel, ?_⟩
      intro x hx
      rcases List.mem_cons.mp hx with rfl | hx'
      · exact ⟨rfl, rfl⟩
      · have := sameKey_eq_true.mp (List.mem_takeWhile_imp hx')
        simpa using this
    · dsimp only at hg
      by_cases hc : e'.time = e.time
      · rw [if_pos hc] at hg
        rcases List.mem_cons.mp hg with rfl | hg'
        · refine ⟨e.channel, ?_⟩
          intro x hx
          rcases List.mem_cons.mp hx with rfl | hx'
          · exact ⟨rfl, rfl⟩
          · have := sameKey_eq_true.mp (List.mem_takeWhile_imp hx')
            simpa using this
        · have hlen' : tl.length < rest.length := dropWhile_cons_length _ _ _ _ hd
          obtain ⟨c, hcgrp⟩ := ih tl.length (by omega) e' tl (by omega) g hg'
          refine ⟨c, ?_⟩
          intro x hx
          have := hcgrp x hx
          rw [hc] at this
          exact this
      · rw [if_neg hc] at hg
        simp only [List.mem_singleton] at hg
        subst hg
        refine ⟨e.channel, ?_⟩
        intro x hx
        rcases List.mem_cons.mp hx with rfl | hx'
        · exact ⟨rfl, rfl⟩
        · have := sameKey_eq_true.mp (List.mem_takeWhile_imp hx')
          simpa using this

/-- In a sorted queue, the set of entries sharing the slice time and a
given channel is delivered as exactly one of the groups produced by the
slice-extraction loop, in queue order. -/
theorem processSlice_filter_mem {α : Type} (n : Nat) :
    ∀ (e : SEntry α) (rest : List (SEntry α)) (c : Nat), rest.length ≤ n →
      List.Pairwise entLt (e :: rest) →
      (∃ z, z ∈ e :: rest ∧ z.time = e.time ∧ z.channel = c) →
      ((e :: rest).filter (sameKey (e.time, c))) ∈
        (processSlice (e.time, e.channel) (e :: rest)).1 := by
  induction n using Nat.strong_induction_on with
  | _ n ih =>
    intro e rest c hlen hp hz
    by_cases hc : c = e.channel
    · subst hc
      have hfe : sameKey (e.time, e.channel) e = true := sameKey_eq_true.mpr rfl
      have hflt : (e :: rest).filter (sameKey (e.time, e.channel)) =
          e :: rest.takeWhile (sameKey (e.time, e.channel)) := by
        rw [List.filter_cons_of_pos hfe, filter_eq_takeWhile_sorted rest e hp]
      rw [hflt, processSlice_cons]
      rcases hd : rest.dropWhile (sameKey (e.time, e.channel)) with _ | ⟨e', tl⟩
      · exact List.mem_singleton.mpr rfl
      · dsimp only
        by_cases hcond : e'.time = e.time
        · rw [if_pos hcond]
          exact List.mem_cons_self _ _
        · rw [if_neg hcond]
          exact List.mem_singleton.mpr rfl
    · obtain ⟨z, hzmem, hzt, hzc⟩ := hz
      have hz_ne : z ≠ e := by
        intro h
        exact hc (by rw [← hzc, h])
      have hzrest : z ∈ rest := by
        rcases List.mem_cons.mp hzmem with h | h
        · exact absurd h hz_ne
        · exact h
      have hfe : ¬ sameKey (e.time, c) e = true := by
        rw [sameKey_eq_true]
        simp only [Prod.mk.injEq]
        exact fun h => hc h.2.symm
      rw [List.filter_cons_of_neg hfe]
      have hsplit : rest.takeWhile (sameKey (e.time, e.channel)) ++
          rest.dropWhile (sameKey (e.time, e.channel)) = rest :=
        List.takeWhile_append_dropWhile _ _
      have hrun : (rest.takeWhile (sameKey (e.time, e.channel))).filter
          (sameKey (e.time, c)) = [] := by
        rw [List.filter_eq_nil_iff]
        intro a ha hpa
        have h1 := sameKey_eq_true.mp (List.mem_takeWhile_imp ha)
        have h2 := sameKey_eq_true.mp hpa
        simp only [Prod.mk.injEq] at h1 h2
        exact hc (h2.2 ▸ h1.2 ▸ rfl)
      have hfilter_rest : rest.filter (sameKey (e.time, c)) =
          (rest.dropWhile (sameKey (e.time, e.channel))).filter (sameKey (e.time, c)) := by
        conv_lhs => rw [← hsplit]
        rw [List.filter_append, hrun, List.nil_append]
      have hz_not_tw : z ∉ rest.takeWhile (sameKey (e.time, e.channel)) := by
        intro hztw
        have := sameKey_eq_true.mp (List.mem_takeWhile_imp hztw)
        simp only [Prod.mk.injEq] at this
        exact hc (hzc ▸ this.2 ▸ rfl)
      have hz_dw : z ∈ rest.dropWhile (sameKey (e.time, e.channel)) := by
        have hmem := hzrest
        rw [← hsplit] at hmem
        rcases List.mem_append.mp hmem with h | h
        · exact absurd h hz_not_tw
        · exact h
      rcases hd : rest.dropWhile (sameKey (e.time, e.channel)) with _ | ⟨e', tl⟩
      · rw [hd] at hz_dw
        simp at hz_dw
      · rw [hd] at hz_dw hfilter_rest
        have hdw_sub : List.Sublist (e' :: tl) rest := by
          rw [← hd]
          exact List.dropWhile_sublist _
        have hp_tail : List.Pairwise entLt rest := (List.pairwise_cons.mp hp).2
        have hp_dw : List.Pairwise entLt (e' :: tl) := hp_tail.sublist hdw_sub
        have he'_mem : e' ∈ rest := hdw_sub.mem (List.mem_cons_self _ _)
        have hee' : entLt e e' := (List.pairwise_cons.mp hp).1 e' he'_mem
        have he'z : e'.time.le z.time := by
          rcases List.mem_cons.mp hz_dw with rfl | hzz
          · exact MonotonicTime.le_refl _
          · exact entLt_time_le ((List.pairwise_cons.mp hp_dw).1 z hzz)
        have hcond : e'.time = e.time := by
          have h1 := entLt_time_le hee'
          rw [MonotonicTime.le_iff_toNs] at h1 he'z
          rw [hzt] at he'z
          apply MonotonicTime.toNs_inj.mp
          omega
        rw [processSlice_cons, hd]
        dsimp only
        rw [if_pos hcond]
        have hlen' : tl.length < rest.length := dropWhile_cons_length _ _ _ _ hd
        have hrec := ih tl.length (by omega) e' tl c (by omega) hp_dw
          ⟨z, hz_dw, by rw [hzt, hcond], hzc⟩
        rw [hfilter_rest, ← hcond]
        exact List.mem_cons_of_mem _ hrec

/-- In a sorted list, two members related by the order occur in that
relative order. -/
theorem pairwise_pair_sublist {α : Type} :
    ∀ (q : List (SEntry α)), List.Pairwise entLt q →
      ∀ {A B : SEntry α}, A ∈ q → B ∈ q → entLt A B → List.Sublist [A, B] q := by
  intro q
  induction q with
  | nil => intro _ A B hA; simp at hA
  | cons x xs ih =>
    intro hp A B hA hB hAB
    have hpc := List.pairwise_cons.mp hp
    by_cases hAx : A = x
    · subst hAx
      have hBxs : B ∈ xs := by
        rcases List.mem_cons.mp hB with rfl | h
        · exact absurd hAB (entLt_irrefl _)
        · exact h
      exact (List.singleton_sublist.mpr hBxs).cons₂ A
    · have hAxs : A ∈ xs := by
        rcases List.mem_cons.mp hA with h | h
        · exact absurd h hAx
        · exact h
      have hBxs : B ∈ xs := by
        rcases List.mem_cons.mp hB with rfl | h
        · exact absurd hAB (entLt_asymm (hpc.1 A hAxs))
        · exact h
      exact (ih hpc.2 hAxs hBxs hAB).cons x

/-- C1: during a single `step()`, co-temporal scheduler entries targeting
the same channel are all concatenated, in ascending `seq` order, into one
sequential future spawned as a single task (so the earlier-scheduled action
is delivered first), while co-temporal entries for different channels are
spawned as independent tasks.  The bounded step spawns exactly the groups
produced by the extraction loop, each group as one task; any two
co-temporal same-channel entries occur, in `seq` order, inside one common
group, and entries for different channels never share a group. -/
theorem c1_step_same_channel_seqfuture {α : Type} (s : SimState α) (bound : MonotonicTime)
    (e : SEntry α) (rest : List (SEntry α))
    (hq : s.queue = e :: rest)
    (hsort : List.Pairwise entLt s.queue)
    (hb : e.time.le bound) :
    (stepToNextBounded s bound =
      (some e.time,
        { s with
            time := e.time
            queue := (processSlice (e.time, e.channel) (e :: rest)).2
            running := []
            delivered := s.delivered ++ s.running ++
              ((processSlice (e.time, e.channel) (e :: rest)).1.map groupTask) })) ∧
    (∀ A B : SEntry α, A ∈ s.queue → B ∈ s.queue → A.time = e.time → B.time = e.time →
      A.channel = B.channel → A.seq < B.seq →
        ∃ g ∈ (processSlice (e.time, e.channel) (e :: rest)).1, List.Sublist [A, B] g) ∧
    (∀ A B : SEntry α, A ∈ s.queue → B ∈ s.queue → A.time = e.time → B.time = e.time →
      A.channel ≠ B.channel →
        ∀ g ∈ (processSlice (e.time, e.channel) (e :: rest)).1, ¬ (A ∈ g ∧ B ∈ g)) := by
  refine ⟨?_, ?_, ?_⟩
  · unfold stepToNextBounded
    rw [hq]
    simp only [hb, if_pos]
  · intro A B hA hB hAt hBt hch hseq
    rw [hq] at hA hB hsort
    have hAB : entLt A B := by
      unfold entLt
      right
      refine ⟨by rw [hAt, hBt], Or.inr ⟨hch, hseq⟩⟩
    have hpair : List.Sublist [A, B] (e :: rest) := pairwise_pair_sublist _ hsort hA hB hAB
    have hApred : sameKey (e.time, A.channel) A = true :=
      sameKey_eq_true.mpr (by rw [hAt])
    have hBpred : sameKey (e.time, A.channel) B = true :=
      sameKey_eq_true.mpr (by rw [hBt, hch])
    refine ⟨(e :: rest).filter (sameKey (e.time, A.channel)), ?_, ?_⟩
    · exact processSlice_filter_mem rest.length e rest A.channel (by omega) hsort
        ⟨A, hA, hAt, rfl⟩
    · have hfilterAB : [A, B].filter (sameKey (e.time, A.channel)) = [A, B] := by
        simp [List.filter, hApred, hBpred]
      have := hpair.filter (sameKey (e.time, A.channel))
      rw [hfilterAB] at this
      exact this
  · intro A B hA hB hAt hBt hch g hg ⟨hAg, hBg⟩
    rw [hq] at hsort
    obtain ⟨c, hhom⟩ := processSlice_groups_homog rest.length e rest (by omega) g hg
    have h1 := (hhom A hAg).2
    have h2 := (hhom B hBg).2
    exact hch (by rw [h1, h2])

/-- Witness for C1: a queue with two co-temporal entries for channel 0
(seqs 0 and 1) and one for channel 1; the two channel-0 actions end up in
one group, in `seq` order. -/
theorem c1_witness :
    (({ time := MonotonicTime.EPOCH,
        queue := [⟨⟨1, 0, by omega⟩, 0, 0, 10⟩, ⟨⟨1, 0, by omega⟩, 0, 1, 20⟩,
          ⟨⟨1, 0, by omega⟩, 1, 2, 30⟩],
        nextSeq := 3, running := [], delivered := [] } : SimState Nat).queue =
      ⟨⟨1, 0, by omega⟩, 0, 0, 10⟩ ::
        [⟨⟨1, 0, by omega⟩, 0, 1, 20⟩, ⟨⟨1, 0, by omega⟩, 1, 2, 30⟩]) ∧
    List.Pairwise entLt
      [(⟨⟨1, 0, by omega⟩, 0, 0, 10⟩ : SEntry Nat), ⟨⟨1, 0, by omega⟩, 0, 1, 20⟩,
        ⟨⟨1, 0, by omega⟩, 1, 2, 30⟩] ∧
    MonotonicTime.le ⟨1, 0, by omega⟩ MonotonicTime.MAX ∧
    (∃ g ∈ (processSlice (⟨1, 0, by omega⟩, 0)
        [(⟨⟨1, 0, by omega⟩, 0, 0, 10⟩ : SEntry Nat), ⟨⟨1, 0, by omega⟩, 0, 1, 20⟩,
          ⟨⟨1, 0, by omega⟩, 1, 2, 30⟩]).1,
      List.Sublist [⟨⟨1, 0, by omega⟩, 0, 0, 10⟩, ⟨⟨1, 0, by omega⟩, 0, 1, 20⟩] g) := by
  refine ⟨rfl, by decide, by decide, ?_⟩
  exact (c1_step_same_channel_seqfuture
      { time := MonotonicTime.EPOCH,
        queue := [⟨⟨1, 0, by omega⟩, 0, 0, 10⟩, ⟨⟨1, 0, by omega⟩, 0, 1, 20⟩,
          ⟨⟨1, 0, by omega⟩, 1, 2, 30⟩],
        nextSeq := 3, running := [], delivered := [] }
      MonotonicTime.MAX
      ⟨⟨1, 0, by omega⟩, 0, 0, 10⟩
      [⟨⟨1, 0, by omega⟩, 0, 1, 20⟩, ⟨⟨1, 0, by omega⟩, 1, 2, 30⟩]
      rfl (by decide) (by decide)).2.1
    ⟨⟨1, 0, by omega⟩, 0, 0, 10⟩ ⟨⟨1, 0, by omega⟩, 0, 1, 20⟩
    (by decide) (by decide) rfl rfl rfl (by decide)

/-- C2: over every sequence of `step()`, `step_by()` and `step_until()`
calls, the value returned by `time()` never decreases, given the driver
invariant (sorted queue, no entry scheduled before the current time); each
advance writes either the minimum pending entry time or the target time,
both at or after the current time. -/
theorem c2_time_monotone {α : Type} (s : SimState α) (ops : List SimOp) (hInv : SimInv s) :
    MonotonicTime.le s.time (runSim s ops).time :=
  runSim_time_le s ops hInv

/-- Witness for C2: from the epoch with one pending entry at t = 5 s,
running `step(); step_by(3 s); step_until(20 s)` never decreases the
time. -/
theorem c2_witness :
    SimInv ({ time := MonotonicTime.EPOCH,
              queue := [⟨⟨5, 0, by omega⟩, 0, 0, 42⟩],
              nextSeq := 1, running := [], delivered := [] } : SimState Nat) ∧
    MonotonicTime.le MonotonicTime.EPOCH
      (runSim
        ({ time := MonotonicTime.EPOCH,
           queue := [⟨⟨5, 0, by omega⟩, 0, 0, 42⟩],
           nextSeq := 1, running := [], delivered := [] } : SimState Nat)
        [SimOp.step, SimOp.stepBy ⟨3, 0, by omega⟩,
          SimOp.stepUntil ⟨20, 0, by omega⟩]).time :=
  ⟨by decide,
    c2_time_monotone
      { time := MonotonicTime.EPOCH,
        queue := [⟨⟨5, 0, by omega⟩, 0, 0, 42⟩],
        nextSeq := 1, running := [], delivered := [] }
      [SimOp.step, SimOp.stepBy ⟨3, 0, by omega⟩, SimOp.stepUntil ⟨20, 0, by omega⟩]
      (by decide)⟩

/-- C3: `step_by(d)` computes the target as the current time plus `d`,
delegates to the bounded stepping loop with that target, and on return the
simulation time equals exactly the old time plus `d`, whether or not an
entry was scheduled at that exact time. -/
theorem c3_step_by_exact {α : Type} (s : SimState α) (d : Duration) :
    stepBy s d = stepUntilUnchecked s (s.time.add d) ∧
      (stepBy s d).time = s.time.add d := by
  constructor
  · rfl
  · unfold stepBy
    exact stepUntilUnchecked_time s (s.time.add d)

/-- C4: `step_until(t)` returns the past-deadline error exactly when `t` is
less than or equal to the current simulation time, in which case the whole
simulation state (time cell and scheduler queue included) is left
unchanged; otherwise it runs the same unchecked loop as `step_by` bounded
by `t` and ends at time `t` with no error. -/
theorem c4_step_until_error {α : Type} (s : SimState α) (target : MonotonicTime) :
    ((stepUntil s target).2.isSome ↔ MonotonicTime.le target s.time) ∧
    (MonotonicTime.le target s.time → stepUntil s target = (s, some ⟨()⟩)) ∧
    (¬ MonotonicTime.le target s.time →
      stepUntil s target = (stepUntilUnchecked s target, none) ∧
        (stepUntil s target).1.time = target) := by
  unfold stepUntil
  by_cases hc : MonotonicTime.le target s.time <;> simp [hc]
  exact stepUntilUnchecked_time s target

/-- Witness for C4: stepping to the epoch from the epoch fails with the
past-deadline error and leaves the state unchanged; stepping to 7 s
succeeds and sets the time to 7 s. -/
theorem c4_witness :
    (MonotonicTime.le MonotonicTime.EPOCH
      ({ time := MonotonicTime.EPOCH, queue := [], nextSeq := 0, running := [],
          delivered := [] } : SimState Nat).time ∧
      stepUntil
        ({ time := MonotonicTime.EPOCH, queue := [], nextSeq := 0, running := [],
            delivered := [] } : SimState Nat) MonotonicTime.EPOCH =
        ({ time := MonotonicTime.EPOCH, queue := [], nextSeq := 0, running := [],
            delivered := [] }, some ⟨()⟩)) ∧
    (¬ MonotonicTime.le ⟨7, 0, by omega⟩
      ({ time := MonotonicTime.EPOCH, queue := [], nextSeq := 0, running := [],
          delivered := [] } : SimState Nat).time ∧
      (stepUntil
        ({ time := MonotonicTime.EPOCH, queue := [], nextSeq := 0, running := [],
            delivered := [] } : SimState Nat) ⟨7, 0, by omega⟩).1.time = ⟨7, 0, by omega⟩) := by
  constructor
  · exact ⟨by decide,
      (c4_step_until_error
        { time := MonotonicTime.EPOCH, queue := [], nextSeq := 0, running := [],
          delivered := [] } MonotonicTime.EPOCH).2.1 (by decide)⟩
  · exact ⟨by decide,
      ((c4_step_until_error
        { time := MonotonicTime.EPOCH, queue := [], nextSeq := 0, running := [],
          delivered := [] } ⟨7, 0, by omega⟩).2.2 (by decide)).2⟩

theorem insertEntry_mem {α : Type} (e : SEntry α) (l : List (SEntry α)) :
    e ∈ insertEntry e l := by
  induction l with
  | nil => exact List.mem_singleton.mpr rfl
  | cons x xs ih =>
    unfold insertEntry
    by_cases hx : entLt x e
    · rw [if_pos hx]
      exact List.mem_cons_of_mem x ih
    · rw [if_neg hx]
      exact List.mem_cons_self _ _

/-- C5: `schedule_in(d, ...)` fails exactly when `d` is zero and
`schedule_at(t, ...)` fails exactly when `t` is not in the future of the
current time; in the error cases the state (scheduler queue included) is
unchanged, and otherwise the returned scheduler key is the queue's fresh
insertion counter and an entry at `now + d` (respectively at `t`) for the
target channel joins the queue. -/
theorem c5_schedule_past_deadline {α : Type} (s : SimState α) (d : Duration)
    (t : MonotonicTime) (ch : Nat) (a : α) :
    ((scheduleIn s d ch a).2 = Except.error ⟨a⟩ ↔ d.isZero) ∧
    (d.isZero → (scheduleIn s d ch a).1 = s) ∧
    (¬ d.isZero →
      (scheduleIn s d ch a).2 = Except.ok s.nextSeq ∧
      (scheduleIn s d ch a).1.queue =
        insertEntry ⟨s.time.add d, ch, s.nextSeq, a⟩ s.queue ∧
      (⟨s.time.add d, ch, s.nextSeq, a⟩ : SEntry α) ∈ (scheduleIn s d ch a).1.queue) ∧
    ((scheduleAt s t ch a).2 = Except.error ⟨a⟩ ↔ MonotonicTime.le t s.time) ∧
    (MonotonicTime.le t s.time → (scheduleAt s t ch a).1 = s) ∧
    (¬ MonotonicTime.le t s.time →
      (scheduleAt s t ch a).2 = Except.ok s.nextSeq ∧
      (scheduleAt s t ch a).1.queue = insertEntry ⟨t, ch, s.nextSeq, a⟩ s.queue ∧
      (⟨t, ch, s.nextSeq, a⟩ : SEntry α) ∈ (scheduleAt s t ch a).1.queue) := by
  unfold scheduleIn scheduleAt scheduleEventAtUnchecked
  constructor
  · by_cases hz : d.isZero <;> simp [hz]
  constructor
  · intro hz; simp [hz]
  constructor
  · intro hz
    simp only [hz, if_neg, not_false_iff]
    refine ⟨?_, ?_, insertEntry_mem _ _⟩ <;> trivial
  constructor
  · by_cases hp : MonotonicTime.le t s.time <;> simp [hp]
  constructor
  · intro hp; simp [hp]
  · intro hp
    simp only [hp, if_neg, not_false_iff]
    refine ⟨?_, ?_, insertEntry_mem _ _⟩ <;> trivial

/-- Witness for C5: a zero duration is rejected, a 1 s duration is accepted
with key 0, and the error case leaves the state unchanged. -/
theorem c5_witness :
    (Duration.isZero ⟨0, 0, by omega⟩ ∧
      (scheduleIn
        ({ time := MonotonicTime.EPOCH, queue := [], nextSeq := 0,
           running := [], delivered := [] } : SimState Nat)
        ⟨0, 0, by omega⟩ 0 7).1 =
        { time := MonotonicTime.EPOCH, queue := [], nextSeq := 0,
          running := [], delivered := [] }) ∧
    (¬ Duration.isZero ⟨1, 0, by omega⟩ ∧
      (scheduleIn
        ({ time := MonotonicTime.EPOCH, queue := [], nextSeq := 0,
           running := [], delivered := [] } : SimState Nat)
        ⟨1, 0, by omega⟩ 0 7).2 = Except.ok 0) := by
  constructor
  · exact ⟨by decide,
      (c5_schedule_past_deadline
        { time := MonotonicTime.EPOCH, queue := [], nextSeq := 0,
          running := [], delivered := [] }
        ⟨0, 0, by omega⟩ MonotonicTime.EPOCH 0 7).2.1 (by decide)⟩
  · exact ⟨by decide,
      ((c5_schedule_past_deadline
        { time := MonotonicTime.EPOCH, queue := [], nextSeq := 0,
          running := [], delivered := [] }
        ⟨1, 0, by omega⟩ MonotonicTime.EPOCH 0 7).2.2.1 (by decide)).1⟩

/-- C6: the waker's scheduling callback panics when no executor context is
entered on the current thread, panics when the task's executor id differs
from the entered executor's id, and otherwise pushes the runnable onto the
entered executor's ready queue; hence a wake can only ever re-enter the
executor the task was spawned on. -/
theorem c6_executor_affinity (ctx : ExecutorContext) (task executorId : Nat) :
    scheduleTask none task executorId =
      Except.error "Tasks may not be awaken outside executor threads" ∧
    (executorId ≠ ctx.executor_id →
      scheduleTask (some ctx) task executorId =
        Except.error "Tasks must be awaken on the same executor they are spawned on") ∧
    (executorId = ctx.executor_id →
      scheduleTask (some ctx) task executorId =
        Except.ok { ctx with queue := ctx.queue ++ [task] }) ∧
    (∀ ctx', scheduleTask (some ctx) task executorId = Except.ok ctx' →
      executorId = ctx.executor_id ∧ ctx'.executor_id = ctx.executor_id ∧
        ctx'.queue = ctx.queue ++ [task]) := by
  refine ⟨rfl, ?_, ?_, ?_⟩
  · intro h
    simp [scheduleTask, h]
  · intro h
    simp [scheduleTask, h]
  · intro ctx' h
    unfold scheduleTask at h
    dsimp only at h
    by_cases he : executorId = ctx.executor_id
    · rw [if_pos he] at h
      simp only [Except.ok.injEq] at h
      exact ⟨he, by rw [← h], by rw [← h]⟩
    · rw [if_neg he] at h
      exact absurd h (by simp)

/-- Witness for C6: on executor 5, a wake carrying executor id 5 is pushed
onto the queue, while a wake carrying executor id 4 panics. -/
theorem c6_witness :
    ((5 : Nat) = (⟨5, []⟩ : ExecutorContext).executor_id ∧
      scheduleTask (some ⟨5, []⟩) 3 5 = Except.ok ⟨5, [3]⟩) ∧
    ((4 : Nat) ≠ (⟨5, []⟩ : ExecutorContext).executor_id ∧
      scheduleTask (some ⟨5, []⟩) 3 4 =
        Except.error "Tasks must be awaken on the same executor they are spawned on") := by
  constructor
  · exact ⟨rfl, (c6_executor_affinity ⟨5, []⟩ 3 5).2.2.1 rfl⟩
  · exact ⟨by decide, (c6_executor_affinity ⟨5, []⟩ 3 4).2.1 (by decide)⟩


/-- C7: for every time whose seconds lie in the protobuf range
`[MIN_SECS, MAX_SECS]` the conversion to a protobuf timestamp and back is a
lossless round-trip; `monotonic_to_timestamp` returns `None` exactly when
the seconds lie outside that range, and `timestamp_to_monotonic` returns
`None` exactly when the nanos field is negative or not below `10⁹`. -/
theorem c7_timestamp_roundtrip (t : MonotonicTime) (ts : Timestamp) :
    ((-62135596800 ≤ t.secs ∧ t.secs ≤ 253402300799) →
      (monotonicToTimestamp t).bind timestampToMonotonic = some t) ∧
    (monotonicToTimestamp t = none ↔
      ¬ (-62135596800 ≤ t.secs ∧ t.secs ≤ 253402300799)) ∧
    (timestampToMonotonic ts = none ↔ (ts.nanos < 0 ∨ 1000000000 ≤ ts.nanos)) := by
  refine ⟨?_, ?_, ?_⟩
  · intro hr
    unfold monotonicToTimestamp
    dsimp only
    rw [if_pos hr]
    have hn : ¬ ((t.nanos : Int) < 0) := by omega
    have h9 : ((t.nanos : Int)).toNat < 1000000000 := by
      have := t.nanos_lt
      omega
    simp only [Option.bind_eq_bind, Option.some_bind]
    unfold timestampToMonotonic MonotonicTime.new
    simp only [hn, if_neg, not_false_iff, dif_pos h9]
    have : ((t.nanos : Int)).toNat = t.nanos := Int.toNat_natCast t.nanos
    simp only [Option.some.injEq]
    cases t
    simp_all
  · unfold monotonicToTimestamp
    dsimp only
    by_cases hr : (-62135596800 ≤ t.secs ∧ t.secs ≤ 253402300799) <;> simp [hr]
  · unfold timestampToMonotonic MonotonicTime.new
    by_cases hn : ts.nanos < 0
    · simp [hn]
    · rw [if_neg hn]
      by_cases h9 : ts.nanos.toNat < 1000000000
      · rw [dif_pos h9]
        simp only [reduceCtorEq, false_iff]
        omega
      · rw [dif_neg h9]
        simp only [true_iff]
        omega

/-- Witness for C7: the epoch lies inside the protobuf timestamp range and
round-trips through the protobuf conversion. -/
theorem c7_witness :
    ((-62135596800 ≤ MonotonicTime.EPOCH.secs ∧
        MonotonicTime.EPOCH.secs ≤ 253402300799) ∧
      (monotonicToTimestamp MonotonicTime.EPOCH).bind timestampToMonotonic =
        some MonotonicTime.EPOCH) := by
  exact ⟨by decide,
    (c7_timestamp_roundtrip MonotonicTime.EPOCH ⟨0, 0⟩).1 (by decide)⟩

/-- C8: `send_event` and `send_query` leave the simulation time (and the
scheduler queue) unchanged: they only spawn the message delivery on the
executor and run it to quiescence, and `send_query` additionally returns
the model's reply when one was produced and a `QueryError` otherwise. -/
theorem c8_send_frame {α β : Type} (s : SimState α) (ch : Nat) (a : α) (reply : Option β) :
    ((sendEvent s ch a).time = s.time ∧ (sendEvent s ch a).queue = s.queue ∧
      (sendEvent s ch a).nextSeq = s.nextSeq ∧
      (sendEvent s ch a).delivered = s.delivered ++ s.running ++ [[(ch, a)]]) ∧
    ((sendQuery s ch a reply).1.time = s.time ∧
      (sendQuery s ch a reply).1.queue = s.queue ∧
      (sendQuery s ch a reply).1.nextSeq = s.nextSeq ∧
      (sendQuery s ch a reply).1.delivered = s.delivered ++ s.running ++ [[(ch, a)]]) ∧
    (∀ r, reply = some r → (sendQuery s ch a reply).2 = Except.ok r) ∧
    (reply = none → (sendQuery s ch a reply).2 = Except.error ⟨⟩) := by
  refine ⟨⟨rfl, rfl, rfl, rfl⟩, ⟨rfl, rfl, rfl, rfl⟩, ?_, ?_⟩
  · intro r hr
    subst hr
    rfl
  · intro hr
    subst hr
    rfl

/-- Witness for C8: a query whose model wrote 42 into the reply slot
returns 42, with the time unchanged. -/
theorem c8_witness :
    ((some 42 : Option Nat) = some 42 ∧
      (sendQuery
        ({ time := MonotonicTime.EPOCH, queue := [], nextSeq := 0,
           running := [], delivered := [] } : SimState Nat)
        0 21 (some 42)).2 = Except.ok 42) ∧
    (sendQuery
      ({ time := MonotonicTime.EPOCH, queue := [], nextSeq := 0,
         running := [], delivered := [] } : SimState Nat)
      0 21 (some (42 : Nat))).1.time = MonotonicTime.EPOCH := by
  refine ⟨⟨rfl, ?_⟩, ?_⟩
  · exact (c8_send_frame
      { time := MonotonicTime.EPOCH, queue := [], nextSeq := 0,
        running := [], delivered := [] }
      0 21 (some 42)).2.2.1 42 rfl
  · exact (c8_send_frame
      { time := MonotonicTime.EPOCH, queue := [], nextSeq := 0,
        running := [], delivered := [] }
      0 21 (some (42 : Nat))).2.1.1

/-- C9: `SimInit::with_num_threads(n)` clamps the worker count to
`[1, usize::BITS]`: `n = 0` yields the single-threaded executor, any `n`
above `usize::BITS` yields `usize::BITS` workers, and the single-threaded
variant is selected exactly when the clamped count is 1, that is exactly
when `n ≤ 1`. -/
theorem c9_thread_clamp (n : Nat) :
    (1 ≤ natClamp n 1 usizeBits ∧ natClamp n 1 usizeBits ≤ usizeBits) ∧
    withNumThreads 0 = ExecutorModel.singleThreaded ∧
    (usizeBits < n → withNumThreads n = ExecutorModel.multiThreaded usizeBits) ∧
    (withNumThreads n = ExecutorModel.singleThreaded ↔ natClamp n 1 usizeBits = 1) ∧
    (natClamp n 1 usizeBits = 1 ↔ n ≤ 1) := by
  refine ⟨?_, by decide, ?_, ?_, ?_⟩
  · unfold natClamp usizeBits
    split_ifs <;> omega
  · intro hgt
    have h1 : natClamp n 1 usizeBits = usizeBits := by
      unfold natClamp usizeBits at *
      split_ifs <;> omega
    unfold withNumThreads
    rw [h1]
    rfl
  · by_cases hc : natClamp n 1 usizeBits = 1
    · simp [withNumThreads, hc]
    · simp [withNumThreads, hc]
  · unfold natClamp usizeBits
    split_ifs <;> omega

/-- Witness for C9: 100 threads are clamped down to the 64 workers
permitted on a 64-bit target. -/
theorem c9_witness :
    usizeBits < 100 ∧ withNumThreads 100 = ExecutorModel.multiThreaded usizeBits :=
  ⟨by decide, (c9_thread_clamp 100).2.2.1 (by decide)⟩

/-- C10: an `Init` request with a missing time field defaults to the
protobuf zero timestamp, so the fresh simulation starts at the 1970-01-01
TAI epoch; whatever context was active (simulation, endpoint registry and
key registry) is discarded and replaced by a freshly built one. -/
theorem c10_init_default_epoch {α : Type} (endpoints : List String)
    (st : Option (ServerCtx α)) :
    serverInit endpoints st { time := none } =
      (some { sim := simInitInit MonotonicTime.EPOCH, endpoints := endpoints,
              keyReg := [] }, true) ∧
    (simInitInit MonotonicTime.EPOCH : SimState α).time = MonotonicTime.EPOCH := by
  constructor
  · rfl
  · rfl
